import Mathlib

/-!
adventleader: leaderboard ranking, rendering and change gate.

A shallow embedding of `adventleader.go` and of the variant `main.go`.

* Go `int` fields are `Int` (no arithmetic is performed on them, only comparisons
  and printing).
* A `time.Time` is its instant, seconds and nanoseconds counted from the zero
  value `time.Time{}`, together with the offset of its location. `After` compares
  the instants and ignores the location.
* The member map `map[string]Member` is the list of its entries in the order in
  which one `range` loop visits them.
* `GetLeaderboard`, `PostToSpark` and `time.Now` are I/O: the fetched leaderboard
  and the clock reading are inputs of `MainLoop`, the posted message is an output.
* `time.Parse`, `Time.Format` and `sort.Sort` belong to the Go standard library and
  are taken as given: they are the fields of a `Library` that every function calling
  them receives. What is assumed of them is stated where it is used.
* `sort.Reverse`, `strings.Trim`, `strings.TrimSuffix`, `fmt.Sprintf` and
  `strconv.Itoa` are modelled by executable definitions that follow the library code.
-/

namespace AdventLeader

/-! ## Data model -/

/-- A `time.Time`: its instant, as the seconds `sec` and nanoseconds `nsec` elapsed
since the zero value `time.Time{}`, and the offset of its location in seconds east
of UTC. -/
structure Time where
  sec : Int
  nsec : Nat
  offset : Int
deriving DecidableEq, Repr, Inhabited

/-- The zero value `time.Time{}`. -/
def Time.zero : Time := { sec := 0, nsec := 0, offset := 0 }

/-- The method `func (t Time) After(u Time) bool`:
`ts > us || ts == us && t.nsec() > u.nsec()`. -/
def Time.After (t u : Time) : Bool :=
  decide (t.sec > u.sec ∨ (t.sec = u.sec ∧ t.nsec > u.nsec))

/-- The method `func (t Time) Equal(u Time) bool`: the same instant, whatever the
locations. -/
def Time.Equal (t u : Time) : Bool :=
  decide (t.sec = u.sec ∧ t.nsec = u.nsec)

/-- A numeral `n` denotes the time `n` whole seconds after the zero value, in UTC. -/
instance instOfNatTime (n : Nat) : OfNat Time n :=
  ⟨{ sec := n, nsec := 0, offset := 0 }⟩

/-- The time `s` is before `t` when `t.After(s)`. -/
instance instLTTime : LT Time := ⟨fun s t => t.After s = true⟩

/-- The time `s` is not after `t` when `s.After(t)` is false. -/
instance instLETime : LE Time := ⟨fun s t => s.After t = false⟩

/-- Deciding `s < t` by running `After`. -/
instance instDecidableLTTime (s t : Time) : Decidable (s < t) :=
  inferInstanceAs (Decidable (t.After s = true))

/-- Deciding `s ≤ t` by running `After`. -/
instance instDecidableLETime (s t : Time) : Decidable (s ≤ t) :=
  inferInstanceAs (Decidable (s.After t = false))

/-- The struct `type JSONTime struct { time.Time }`. -/
structure JSONTime where
  Time : Time
deriving DecidableEq, Repr, Inhabited

/-- The struct `Configuration` of `adventleader.go`. -/
structure Configuration where
  Debug : Bool
  URL : String
  Cookie : String
  BotToken : String
  RoomID : String
deriving DecidableEq, Repr, Inhabited

/-- The struct `Member` (the `Days` map is never read by `MainLoop`). -/
structure Member where
  ID : String
  Name : String
  Stars : Int
  LocalScore : Int
  GlobalScore : Int
  LastStarTS : JSONTime
deriving DecidableEq, Repr, Inhabited

/-- The struct `Leaderboard`; `Members` lists the map entries in iteration order. -/
structure Leaderboard where
  OwnerID : String
  Event : String
  Members : List (String × Member)
deriving DecidableEq, Repr, Inhabited

/-! ## Package `sort` -/

/-- The interface `sort.Interface` over a collection type `σ`. -/
structure Interface (σ : Type) where
  Len : σ → Nat
  Less : σ → Nat → Nat → Bool
  Swap : σ → Nat → Nat → σ

/-- The wrapper `sort.Reverse`: `Less(i, j)` of the result is `Less(j, i)`. -/
def Reverse {σ : Type} (data : Interface σ) : Interface σ :=
  { Len := data.Len, Less := fun d i j => data.Less d j i, Swap := data.Swap }

/-- The inner loop of the library's `insertionSort`:
`for j := i; j > a && data.Less(j, j-1); j-- { data.Swap(j, j-1) }`. -/
def sinkLoop {σ : Type} (I : Interface σ) (a : Nat) : Nat → σ → σ
  | 0, d => d
  | j + 1, d =>
    if a < j + 1 && I.Less d (j + 1) j then sinkLoop I a j (I.Swap d (j + 1) j) else d

/-- The outer loop of `insertionSort`, `for i := a + 1; i < b; i++`, with the
number `n = b - i` of remaining iterations as the structural argument. -/
def insertionLoop {σ : Type} (I : Interface σ) (a : Nat) : Nat → Nat → σ → σ
  | 0, _, d => d
  | n + 1, i, d => insertionLoop I a n (i + 1) (sinkLoop I a i d)

/-- The library's `insertionSort(data, a, b)`. -/
def insertionSort {σ : Type} (I : Interface σ) (d : σ) (a b : Nat) : σ :=
  insertionLoop I a (b - (a + 1)) (a + 1) d

/-- A Go slice element read `m[i]` (indices handed out by `sort` are in range). -/
def at_ {α : Type} [Inhabited α] (m : List α) (i : Nat) : α := m.getD i default

/-- The parallel assignment `m[i], m[j] = m[j], m[i]`. -/
def swapAt {α : Type} [Inhabited α] (m : List α) (i j : Nat) : List α :=
  (m.set i (at_ m j)).set j (at_ m i)

/-- The type `type SortedMembers []Member`. -/
abbrev SortedMembers := List Member

/-- The method `SortedMembers.Len`. -/
def SortedMembers.Len (m : SortedMembers) : Nat := m.length

/-- The method `SortedMembers.Swap`. -/
def SortedMembers.Swap (m : SortedMembers) (i j : Nat) : SortedMembers := swapAt m i j

/-- The method `SortedMembers.Less`. -/
def SortedMembers.Less (m : SortedMembers) (i j : Nat) : Bool :=
  if (at_ m i).LocalScore < (at_ m j).LocalScore then true
  else if (at_ m i).LocalScore > (at_ m j).LocalScore then false
  else decide ((at_ m i).Stars < (at_ m j).Stars)

/-- The `sort.Interface` implemented by `SortedMembers`. -/
def SortedMembers.iface : Interface SortedMembers :=
  { Len := SortedMembers.Len, Less := SortedMembers.Less, Swap := SortedMembers.Swap }

/-- The type `sort.IntSlice` with its methods `Len`, `Less` (`x[i] < x[j]`), `Swap`. -/
def IntSlice.iface : Interface (List Int) :=
  { Len := fun x => x.length,
    Less := fun x i j => decide (at_ x i < at_ x j),
    Swap := fun x i j => swapAt x i j }

/-- The functions of the Go standard library that are taken as given: `time.Parse`
(`timeParse layout value`, failing with an error of type `ε`), the method
`Time.Format` (`timeFormat t layout`) and `sort.Sort`. -/
structure Library (ε : Type) where
  timeParse : String → String → Except ε Time
  timeFormat : Time → String → String
  sortSort : {σ : Type} → Interface σ → σ → σ

/-- The data `r` is reached from `d` by calls of `Swap` with indices below `Len`. -/
inductive SwapReach {σ : Type} (I : Interface σ) : σ → σ → Prop
  | refl (d : σ) : SwapReach I d d
  | step (d r : σ) (i j : Nat) :
      i < I.Len d → j < I.Len d → SwapReach I (I.Swap d i j) r → SwapReach I d r

/-- What the documentation of `sort.Sort` promises of a call on `data`: the data is
rearranged through `Swap` only, and afterwards it is in ascending order as
determined by `Less`, so no element is `Less` than an element before it. -/
def SortContract {σ : Type} (sort : Interface σ → σ → σ) (I : Interface σ) : Prop :=
  ∀ d : σ, SwapReach I d (sort I d) ∧
    ∀ i j : Nat, i < j → j < I.Len (sort I d) → I.Less (sort I d) j i = false

/-- The library routine `insertionSort` run over the whole of `data`, which is all
that `sort.Sort` does on a slice of at most six elements. -/
def insertionSortAll {σ : Type} (I : Interface σ) (d : σ) : σ :=
  insertionSort I d 0 (I.Len d)

/-- An interface over lists whose `Less` compares the two elements with `lt` and
whose `Swap` exchanges them. -/
structure ListIface {α : Type} [Inhabited α] (I : Interface (List α)) (lt : α → α → Bool) : Prop where
  len : ∀ d, I.Len d = d.length
  less : ∀ d i j, I.Less d i j = lt (at_ d i) (at_ d j)
  swap : ∀ d i j, I.Swap d i j = swapAt d i j

/-- The comparison `lt` is a strict weak order: asymmetric, with a transitive
"not after" relation. -/
structure StrictWeak {α : Type} (lt : α → α → Bool) : Prop where
  asymm : ∀ a b, lt a b = true → lt b a = false
  trans : ∀ a b c, lt b a = false → lt c b = false → lt c a = false

/-- The comparison made by `SortedMembers.Less` on two elements. -/
def memberLess (a b : Member) : Bool :=
  if a.LocalScore < b.LocalScore then true
  else if a.LocalScore > b.LocalScore then false
  else decide (a.Stars < b.Stars)

/-- Member `a` may stand before member `b` in a ranking: higher local score, or the
same local score and at least as many stars. -/
def rankedBefore (a b : Member) : Prop :=
  a.LocalScore > b.LocalScore ∨ (a.LocalScore = b.LocalScore ∧ a.Stars ≥ b.Stars)

/-- The pair of sort keys of a member. -/
def sortKey (m : Member) : Int × Int := (m.LocalScore, m.Stars)

/-- The order of the sort keys in a ranking: local score descending, then stars
descending. -/
def keyBefore (k l : Int × Int) : Prop :=
  k.1 > l.1 ∨ (k.1 = l.1 ∧ k.2 ≥ l.2)

/-! ## Packages `strings`, `fmt`, `strconv` -/

/-- The function `strings.Trim(s, cutset)`: drops every leading and every trailing
character of `s` that occurs in `cutset`. -/
def Trim (s cutset : String) : String :=
  String.mk
    (((s.data.dropWhile (fun c => cutset.data.contains c)).reverse.dropWhile
      (fun c => cutset.data.contains c)).reverse)

/-- The function `strings.TrimSuffix(s, suffix)`. -/
def TrimSuffix (s suffix : String) : String :=
  if suffix.data.isSuffixOf s.data then
    String.mk (s.data.take (s.data.length - suffix.data.length))
  else s

/-- The decimal digit `byte('0' + d)`. -/
def digitChar (d : Nat) : Char := Char.ofNat (48 + d)

/-- The digit loop of `fmt.fmtInteger`, writing right to left into `buf`:
`for u >= 10 { next := u / 10; buf[i] = '0' + u - next*10; u = next }`, then the
leading digit `buf[i] = digits[u]`. The first argument bounds the iterations; a
bound of `u` is never reached. -/
def fmtDigits : Nat → Nat → List Char → List Char
  | 0, u, buf => digitChar u :: buf
  | fuel + 1, u, buf =>
    if 10 ≤ u then fmtDigits fuel (u / 10) (digitChar (u - (u / 10) * 10) :: buf)
    else digitChar u :: buf

/-- The routine `fmt.fmtInteger` for base 10 under the verb `%0<wid>d` (`%d` is
`wid = 0`): the digits of the magnitude, zero-filled up to the precision, which is
the width less one place for the sign of a negative value, then the sign. -/
def fmtInteger (v : Int) (wid : Nat) : List Char :=
  let negative := decide (v < 0)
  let prec := if negative then wid - 1 else wid
  let digits := fmtDigits v.natAbs v.natAbs []
  let buf := List.replicate (prec - digits.length) (digitChar 0) ++ digits
  if negative then Char.ofNat 45 :: buf else buf

/-- The function `strconv.Itoa`. -/
def Itoa (v : Int) : String := String.mk (fmtInteger v 0)

/-- The number written by a string of decimal digits, leading zeros allowed. -/
def decodeNat (cs : List Char) : Nat :=
  cs.foldl (fun acc c => 10 * acc + (c.toNat - 48)) 0

/-- The integer written by an optional minus sign followed by decimal digits. -/
def decodeInt (cs : List Char) : Int :=
  if cs.head? = some (Char.ofNat 45) then - (decodeNat cs.tail : Int) else (decodeNat cs : Int)

/-! ## Time codec -/

/-- The constant `timeLayout`. -/
def timeLayout : String := "2006-01-02T15:04:05-0700"

/-- The constant `time.RFC3339`. -/
def RFC3339 : String := "2006-01-02T15:04:05Z07:00"

/-- The method `JSONTime.UnmarshalJSON`. The library function `time.Parse` is the
parameter `timeParse layout value`; when it fails it returns the zero `Time`
together with its error, which is what the assignment `t.Time, err = ...` stores.
The result is the new value of the receiver and the returned error. -/
def UnmarshalJSON {ε : Type} (timeParse : String → String → Except ε Time)
    (_t : JSONTime) (b : String) : JSONTime × Option ε :=
  let s := Trim b (String.mk [Char.ofNat 34])
  if s = "null" then
    ({ Time := Time.zero }, none)
  else
    match timeParse timeLayout s with
    | Except.ok v => ({ Time := v }, none)
    | Except.error e => ({ Time := Time.zero }, some e)

/-- The function `JSONtoNormalTime`:
`t, err := time.Parse(time.RFC3339, jt.Format(time.RFC3339))`. When the parse fails
the error is only logged and `t`, the zero `Time` that `time.Parse` returns with an
error, is returned. -/
def JSONtoNormalTime {ε : Type} (lib : Library ε) (jt : JSONTime) : Time :=
  match lib.timeParse RFC3339 (lib.timeFormat jt.Time RFC3339) with
  | Except.ok t => t
  | Except.error _ => Time.zero

/-! ## `MainLoop` of `adventleader.go` -/

/-- What one call of `MainLoop` does: the sorted slice, `lastStar`, the message,
the text printed to the console, the message handed to `PostToSpark` (if it is
called) and the returned time. -/
structure Cycle where
  members : List Member
  lastStar : Time
  message : String
  printed : Option String
  posted : Option String
  result : Time
deriving DecidableEq, Repr

/-- One iteration of `for _, member := range leaderboard.Members`. -/
def collectStep {ε : Type} (lib : Library ε) (st : List Member × Time)
    (e : String × Member) : List Member × Time :=
  let members := st.1 ++ [e.2]
  let memberStarTime := JSONtoNormalTime lib e.2.LastStarTS
  if memberStarTime.After st.2 then (members, memberStarTime) else (members, st.2)

/-- The collection loop, from `var lastStar time.Time` and `var members []Member`. -/
def collect {ε : Type} (lib : Library ε) (leaderboard : Leaderboard) :
    List Member × Time :=
  leaderboard.Members.foldl (collectStep lib) ([], Time.zero)

/-- The header `fmt.Sprintf("### [Leaderboard 🎄](%s)\n\n---\n", lb)`. -/
def header (lb : String) : String :=
  "### [Leaderboard 🎄](" ++ lb ++ ")\n\n---\n"

/-- The display name chosen in the body of the message loop. -/
def displayName (m : Member) : String :=
  if m.Name = "" then m.ID else m.Name

/-- One iteration of `for _, m := range members` on the message. -/
def renderStep (message : String) (m : Member) : String :=
  let name := displayName m
  let message :=
    if m.Stars > 0 then
      message ++ (" 1. 📈 `" ++ String.mk (fmtInteger m.LocalScore 3) ++ "` ⭐ `" ++
        String.mk (fmtInteger m.Stars 2) ++ "` – **" ++ name ++ "** ")
    else message
  let message :=
    if m.GlobalScore > 0 then
      message ++ (" (🌍 _" ++ String.mk (fmtInteger m.GlobalScore 0) ++ "_!)")
    else message
  message ++ "\n"

/-- The text that one member adds to the message. -/
def memberLine (m : Member) : String := renderStep "" m

/-- The concatenation of a list of strings. -/
def concatLines (ls : List String) : String := ls.foldr (fun l acc => l ++ acc) ""

/-- The function `MainLoop` of `adventleader.go`, with the fetched leaderboard and
the value of `time.Now()` as inputs. -/
def MainLoop {ε : Type} (lib : Library ε) (config : Configuration)
    (leaderboard : Leaderboard) (lastUpdate now : Time) : Cycle :=
  let c := collect lib leaderboard
  let lastStar := c.2
  let members := lib.sortSort (Reverse SortedMembers.iface) c.1
  let lb := TrimSuffix config.URL ".json"
  let message := members.foldl renderStep (header lb)
  let printed := if config.Debug then some message else none
  let posted :=
    if lastStar.After lastUpdate || config.Debug then some message else none
  { members := members, lastStar := lastStar, message := message,
    printed := printed, posted := posted, result := now }

/-- The loop of `main`: `lastUpdate` starts at the clock reading `start`, and every
cycle replaces it by the result of `MainLoop` on that cycle's fetched leaderboard
and clock reading. -/
def pollLoop {ε : Type} (lib : Library ε) (config : Configuration) (start : Time)
    (cycles : List (Leaderboard × Time)) : Time :=
  cycles.foldl (fun lastUpdate c => (MainLoop lib config c.1 lastUpdate c.2).result) start

/-! ## Sample data -/

/-- The time 2017-12-01T05:00:00-05:00. -/
def sampleDawn : Time := { sec := 63647719200, nsec := 0, offset := -18000 }

/-- The time 2017-12-01T05:00:00.5-05:00, half a second after `sampleDawn`. -/
def sampleDawnAndHalf : Time := { sec := 63647719200, nsec := 500000000, offset := -18000 }

/-- The time 2017-12-01T05:00:00 in a location 25 hours east of UTC, which is what
`timeLayout` reads from the offset `+2460`. -/
def sampleFarEast : Time := { sec := 63647611200, nsec := 0, offset := 90000 }

/-- A stand-in for `Time.Format` under `RFC3339` on the sample times: the layout
has no fractional seconds, so `sampleDawnAndHalf` is printed like `sampleDawn`. -/
def sampleFormat (t : Time) (layout : String) : String :=
  if layout = RFC3339 then
    if t = Time.zero then "0001-01-01T00:00:00Z"
    else if t = 70 then "0001-01-01T00:01:10Z"
    else if t = 90 then "0001-01-01T00:01:30Z"
    else if t = 100 then "0001-01-01T00:01:40Z"
    else if t = sampleDawn then "2017-12-01T05:00:00-05:00"
    else if t = sampleDawnAndHalf then "2017-12-01T05:00:00-05:00"
    else if t = sampleFarEast then "2017-12-01T05:00:00+25:00"
    else ""
  else ""

/-- A stand-in for `time.Parse` that accepts a few texts only: two under
`timeLayout`, which like every layout admits a fractional second after the seconds,
and under `RFC3339` the texts that `sampleFormat` prints, except the one whose
offset hour 25 is out of range. -/
def sampleParse (layout value : String) : Except String Time :=
  if layout = timeLayout then
    if value = "2017-12-01T05:00:00-0500" then Except.ok sampleDawn
    else if value = "2017-12-01T05:00:00.5-0500" then Except.ok sampleDawnAndHalf
    else Except.error "parsing time: cannot parse"
  else if layout = RFC3339 then
    if value = "0001-01-01T00:00:00Z" then Except.ok Time.zero
    else if value = "0001-01-01T00:01:10Z" then Except.ok 70
    else if value = "0001-01-01T00:01:30Z" then Except.ok 90
    else if value = "0001-01-01T00:01:40Z" then Except.ok 100
    else if value = "2017-12-01T05:00:00-05:00" then Except.ok sampleDawn
    else Except.error "parsing time: cannot parse"
  else Except.error "parsing time: cannot parse"

/-- The sample library: the two stand-ins and, for `sort.Sort`, the insertion sort
that it runs on the short sample slices. -/
def sampleLibrary : Library String :=
  { timeParse := sampleParse, timeFormat := sampleFormat, sortSort := insertionSortAll }

/-- A member without a name, three stars, local score 50. -/
def sampleA : Member :=
  { ID := "A1", Name := "", Stars := 3, LocalScore := 50, GlobalScore := 0,
    LastStarTS := { Time := 100 } }

/-- A named member with a global score, two stars, local score 80. -/
def sampleB : Member :=
  { ID := "B1", Name := "Bob", Stars := 2, LocalScore := 80, GlobalScore := 7,
    LastStarTS := { Time := 90 } }

/-- A member that has not earned a star yet. -/
def sampleZ : Member :=
  { ID := "Z1", Name := "Zed", Stars := 0, LocalScore := 0, GlobalScore := 0,
    LastStarTS := { Time := Time.zero } }

/-- A member with the local score of `sampleA`. -/
def sampleC : Member :=
  { ID := "C1", Name := "Cy", Stars := 4, LocalScore := 50, GlobalScore := 0,
    LastStarTS := { Time := 70 } }

/-- A member whose last star carries half a second. -/
def sampleH : Member :=
  { ID := "H1", Name := "Hal", Stars := 1, LocalScore := 10, GlobalScore := 0,
    LastStarTS := { Time := sampleDawnAndHalf } }

/-- A member whose last star was read from a text with the offset `+2460`. -/
def sampleW : Member :=
  { ID := "W1", Name := "Wu", Stars := 1, LocalScore := 20, GlobalScore := 0,
    LastStarTS := { Time := sampleFarEast } }

/-- A configuration with debug mode off. -/
def sampleConfig : Configuration :=
  { Debug := false, URL := "https://example.org/board/1.json", Cookie := "c",
    BotToken := "t", RoomID := "r" }

/-- A leaderboard with the members `sampleA`, `sampleZ`, `sampleB`. -/
def sampleBoard : Leaderboard :=
  { OwnerID := "1", Event := "2017",
    Members := [("A1", sampleA), ("Z1", sampleZ), ("B1", sampleB)] }

/-- The members of `sampleBoard`, visited in another order. -/
def sampleBoardShuffled : Leaderboard :=
  { OwnerID := "1", Event := "2017",
    Members := [("B1", sampleB), ("A1", sampleA), ("Z1", sampleZ)] }

/-- A leaderboard whose only member has no star. -/
def sampleBoardNoStars : Leaderboard :=
  { OwnerID := "1", Event := "2017", Members := [("Z1", sampleZ)] }

/-- A leaderboard with two members of equal local score. -/
def sampleBoardTie : Leaderboard :=
  { OwnerID := "1", Event := "2017", Members := [("A1", sampleA), ("C1", sampleC)] }

/-- A leaderboard whose only member is `sampleH`. -/
def sampleBoardHalf : Leaderboard :=
  { OwnerID := "1", Event := "2017", Members := [("H1", sampleH)] }

/-- A leaderboard with the members `sampleA` and `sampleW`. -/
def sampleBoardFarEast : Leaderboard :=
  { OwnerID := "1", Event := "2017", Members := [("A1", sampleA), ("W1", sampleW)] }

end AdventLeader

/-! ## The variant `main.go` -/

namespace MainGo

open AdventLeader

/-- The struct `Configuration` of `main.go`. -/
structure Configuration where
  URL : String
  Cookie : String
  BotToken : String
  RoomID : String
deriving DecidableEq, Repr, Inhabited

/-- The constant `const debug bool = true`. -/
def debug : Bool := true

/-- The map `ids := make(map[int]Member)`, as its list of assignments, newest first. -/
abbrev IdMap := List (Int × Member)

/-- The assignment `ids[k] = v`. -/
def IdMap.set (ids : IdMap) (k : Int) (v : Member) : IdMap := (k, v) :: ids

/-- The read `ids[k]`: the value last assigned under `k`, the zero `Member` if none. -/
def IdMap.get (ids : IdMap) (k : Int) : Member :=
  match ids.lookup k with
  | some v => v
  | none => { ID := "", Name := "", Stars := 0, LocalScore := 0, GlobalScore := 0,
              LastStarTS := { Time := Time.zero } }

/-- The state of the collection loop: `keys`, `ids`, `lastStar`. -/
structure Collected where
  keys : List Int
  ids : IdMap
  lastStar : Time
deriving DecidableEq, Repr

/-- One iteration of `for _, member := range leaderboard.Members`. -/
def collectStep {ε : Type} (lib : Library ε) (st : Collected) (e : String × Member) :
    Collected :=
  let keys := st.keys ++ [e.2.LocalScore]
  let ids := st.ids.set e.2.LocalScore e.2
  let memberStarTime := JSONtoNormalTime lib e.2.LastStarTS
  if memberStarTime.After st.lastStar then
    { keys := keys, ids := ids, lastStar := memberStarTime }
  else { keys := keys, ids := ids, lastStar := st.lastStar }

/-- The collection loop. -/
def collect {ε : Type} (lib : Library ε) (leaderboard : Leaderboard) : Collected :=
  leaderboard.Members.foldl (collectStep lib)
    { keys := [], ids := [], lastStar := Time.zero }

/-- One iteration of `for _, k := range keys` on the message. -/
def renderStep (ids : IdMap) (message : String) (k : Int) : String :=
  let name := if (ids.get k).Name = "" then (ids.get k).ID else (ids.get k).Name
  let message := message ++ (" 1. **" ++ name ++ "**")
  let message := message ++ (" 📈 _" ++ Itoa (ids.get k).LocalScore ++ "_")
  let message := message ++ (" ⭐ _" ++ Itoa (ids.get k).Stars ++ "_")
  message ++ "\n"

/-- What one call of `MainLoop` of `main.go` does; `shown` lists, line by line, the
member `ids[k]` that the line of key `k` is rendered from. -/
structure Cycle where
  keys : List Int
  shown : List Member
  lastStar : Time
  message : String
  posted : Option String
  result : Time
deriving DecidableEq, Repr

/-- The function `MainLoop` of `main.go`. -/
def MainLoop {ε : Type} (lib : Library ε) (_config : Configuration)
    (leaderboard : Leaderboard) (lastUpdate now : Time) : Cycle :=
  let c := collect lib leaderboard
  let keys := lib.sortSort (Reverse IntSlice.iface) c.keys
  let message := keys.foldl (renderStep c.ids) "### Leaderboard 🎄\n\n"
  if c.lastStar.After lastUpdate || debug then
    { keys := keys, shown := keys.map c.ids.get, lastStar := c.lastStar,
      message := message, posted := some message, result := now }
  else
    { keys := keys, shown := keys.map c.ids.get, lastStar := c.lastStar,
      message := message, posted := none, result := lastUpdate }

/-- A configuration of the `main.go` variant. -/
def sampleConfig : Configuration :=
  { URL := "https://example.org/board/1.json", Cookie := "c", BotToken := "t", RoomID := "r" }

end MainGo

namespace AdventLeader

/-! ## The insertion sort and the contract of `sort.Sort` -/

theorem at_append_cons {α : Type} [Inhabited α] (q : List α) (y : α) (t : List α) :
    at_ (q ++ y :: t) q.length = y := by
  induction q with
  | nil => simp [at_]
  | cons a q ih => simpa [at_] using ih

theorem at_append_cons_succ {α : Type} [Inhabited α] (q : List α) (y x : α) (t : List α) :
    at_ (q ++ y :: x :: t) (q.length + 1) = x := by
  induction q with
  | nil => simp [at_]
  | cons a q ih => simpa [at_] using ih

theorem set_append_cons {α : Type} (q : List α) (y z : α) (t : List α) :
    (q ++ y :: t).set q.length z = q ++ z :: t := by
  induction q with
  | nil => simp
  | cons a q ih => simp [ih]

theorem set_append_cons_succ {α : Type} (q : List α) (y x z : α) (t : List α) :
    (q ++ y :: x :: t).set (q.length + 1) z = q ++ y :: z :: t := by
  induction q with
  | nil => simp
  | cons a q ih => simp [ih]

theorem swapAt_adjacent {α : Type} [Inhabited α] (q : List α) (y x : α) (t : List α) :
    swapAt (q ++ y :: x :: t) (q.length + 1) q.length = q ++ x :: y :: t := by
  unfold swapAt
  rw [at_append_cons, at_append_cons_succ, set_append_cons_succ, set_append_cons]

theorem sinkLoop_spec {α : Type} [Inhabited α] {I : Interface (List α)} {lt : α → α → Bool}
    (hI : ListIface I lt) (hlt : StrictWeak lt) (p : List α) :
    ∀ (x : α) (s : List α), p.Pairwise (fun a b => lt b a = false) →
      ∃ l, sinkLoop I 0 p.length (p ++ x :: s) = l ++ s ∧ l.Perm (p ++ [x]) ∧
        l.Pairwise (fun a b => lt b a = false) := by
  induction p using List.reverseRecOn with
  | nil =>
    intro x s _
    exact ⟨[x], by simp [sinkLoop], by simp, by simp⟩
  | append_singleton q y ih =>
    intro x s hp
    have hq : q.Pairwise (fun a b => lt b a = false) := (List.pairwise_append.1 hp).1
    have hqy : ∀ z ∈ q, lt y z = false := fun z hz =>
      (List.pairwise_append.1 hp).2.2 z hz y (by simp)
    have hd : q ++ [y] ++ x :: s = q ++ y :: x :: s := by simp
    have hlen : (q ++ [y]).length = q.length + 1 := by simp
    rw [hlen, hd, sinkLoop, hI.less, hI.swap, at_append_cons, at_append_cons_succ,
      swapAt_adjacent]
    by_cases hxy : lt x y = true
    · obtain ⟨l, hl, hperm, hsorted⟩ := ih x (y :: s) hq
      refine ⟨l ++ [y], ?_, ?_, ?_⟩
      · simp [hxy, hl]
      · have h1 : (l ++ [y]).Perm (q ++ [x] ++ [y]) := hperm.append_right [y]
        refine h1.trans ?_
        simp only [List.append_assoc]
        exact List.Perm.append_left q (List.Perm.swap y x [])
      · rw [List.pairwise_append]
        refine ⟨hsorted, by simp, ?_⟩
        intro z hz w hw
        have hw2 : w = y := by simpa using hw
        subst hw2
        have hz2 : z ∈ q ++ [x] := hperm.mem_iff.1 hz
        rcases List.mem_append.1 hz2 with h | h
        · exact hqy z h
        · have hzx : z = x := by simpa using h
          subst hzx
          exact hlt.asymm _ _ hxy
    · have hxy2 : lt x y = false := by simpa using hxy
      refine ⟨q ++ [y] ++ [x], by simp [hxy2], List.Perm.refl _, ?_⟩
      rw [List.pairwise_append]
      refine ⟨hp, by simp, ?_⟩
      intro z hz w hw
      have hw2 : w = x := by simpa using hw
      subst hw2
      rcases List.mem_append.1 hz with h | h
      · exact hlt.trans z y w (hqy z h) hxy2
      · have hzy : z = y := by simpa using h
        subst hzy
        exact hxy2

theorem insertionLoop_spec {α : Type} [Inhabited α] {I : Interface (List α)} {lt : α → α → Bool}
    (hI : ListIface I lt) (hlt : StrictWeak lt) (suf : List α) :
    ∀ pre : List α, pre.Pairwise (fun a b => lt b a = false) →
      (insertionLoop I 0 suf.length pre.length (pre ++ suf)).Perm (pre ++ suf) ∧
        (insertionLoop I 0 suf.length pre.length (pre ++ suf)).Pairwise
          (fun a b => lt b a = false) := by
  induction suf with
  | nil =>
    intro pre hp
    simpa [insertionLoop] using hp
  | cons x s ih =>
    intro pre hp
    obtain ⟨l, hl, hperm, hsorted⟩ := sinkLoop_spec hI hlt pre x s hp
    have hlen : l.length = pre.length + 1 := by simpa using hperm.length_eq
    have h := ih l hsorted
    rw [hlen] at h
    simp only [List.length_cons, insertionLoop, hl]
    refine ⟨h.1.trans ?_, h.2⟩
    have : (l ++ s).Perm (pre ++ [x] ++ s) := hperm.append_right s
    simpa using this

theorem insertionSortAll_spec {α : Type} [Inhabited α] {I : Interface (List α)}
    {lt : α → α → Bool} (hI : ListIface I lt) (hlt : StrictWeak lt) (d : List α) :
    (insertionSortAll I d).Perm d ∧
      (insertionSortAll I d).Pairwise (fun a b => lt b a = false) := by
  cases d with
  | nil => simp [insertionSortAll, insertionSort, insertionLoop, hI.len]
  | cons x t =>
    have h := insertionLoop_spec hI hlt t [x] (by simp)
    simpa [insertionSortAll, insertionSort, hI.len] using h

theorem at_eq_get {α : Type} [Inhabited α] (m : List α) (i : Nat) (h : i < m.length) :
    at_ m i = m.get ⟨i, h⟩ := by
  unfold at_
  exact List.getD_eq_getElem _ _ h

theorem swapAt_length {α : Type} [Inhabited α] (m : List α) (i j : Nat) :
    (swapAt m i j).length = m.length := by
  simp [swapAt]

theorem count_pos_of_get {α : Type} [DecidableEq α] (m : List α) (i : Nat)
    (h : i < m.length) (b : α) (hb : m.get ⟨i, h⟩ = b) : 1 ≤ m.count b := by
  have hmem : b ∈ m := by
    rw [← hb]
    exact List.get_mem m i h
  exact List.count_pos_iff.2 hmem

theorem swapAt_perm {α : Type} [Inhabited α] [DecidableEq α] (m : List α) (i j : Nat)
    (hi : i < m.length) (hj : j < m.length) : (swapAt m i j).Perm m := by
  rw [List.perm_iff_count]
  intro b
  unfold swapAt
  rw [at_eq_get m i hi, at_eq_get m j hj]
  have hj2 : j < (m.set i (m.get ⟨j, hj⟩)).length := by simpa using hj
  rw [List.count_set _ _ _ _ hj2, List.count_set _ _ _ _ hi]
  have hget : (m.set i (m.get ⟨j, hj⟩))[j] = m.get ⟨j, hj⟩ := by
    rw [List.getElem_set]
    split_ifs with h
    · rfl
    · rfl
  rw [hget]
  have h1 := count_pos_of_get m i hi b
  have h2 := count_pos_of_get m j hj b
  simp only [List.get_eq_getElem, beq_iff_eq] at h1 h2 ⊢
  by_cases hib : m[i] = b <;> by_cases hjb : m[j] = b <;> simp [hib, hjb]
  · have := h1 hib
    omega
  · have := h1 hib
    omega

theorem swapReach_trans {σ : Type} {I : Interface σ} {a b c : σ}
    (h₁ : SwapReach I a b) (h₂ : SwapReach I b c) : SwapReach I a c := by
  induction h₁ with
  | refl d => exact h₂
  | step d r i j hi hj _ ih => exact SwapReach.step d c i j hi hj (ih h₂)

theorem swapReach_perm {α : Type} [Inhabited α] [DecidableEq α] {I : Interface (List α)}
    {lt : α → α → Bool} (hI : ListIface I lt) {d r : List α} (h : SwapReach I d r) :
    r.Perm d := by
  induction h with
  | refl d => exact List.Perm.refl d
  | step d r i j hi hj _ ih =>
    rw [hI.len] at hi hj
    rw [hI.swap] at ih
    exact ih.trans (swapAt_perm d i j hi hj)

theorem sinkLoop_reach {α : Type} [Inhabited α] {I : Interface (List α)}
    {lt : α → α → Bool} (hI : ListIface I lt) (j : Nat) :
    ∀ d : List α, j < d.length → SwapReach I d (sinkLoop I 0 j d) := by
  induction j with
  | zero =>
    intro d _
    exact SwapReach.refl d
  | succ j ih =>
    intro d hj
    unfold sinkLoop
    split_ifs
    · refine SwapReach.step d _ (j + 1) j (by rw [hI.len]; exact hj)
        (by rw [hI.len]; omega) ?_
      apply ih
      rw [hI.swap, swapAt_length]
      omega
    · exact SwapReach.refl d

theorem swapReach_length {α : Type} [Inhabited α] {I : Interface (List α)}
    {lt : α → α → Bool} (hI : ListIface I lt) {d r : List α} (h : SwapReach I d r) :
    r.length = d.length := by
  induction h with
  | refl d => rfl
  | step d r i j _ _ _ ih =>
    rw [ih, hI.swap, swapAt_length]

theorem insertionLoop_reach {α : Type} [Inhabited α] {I : Interface (List α)}
    {lt : α → α → Bool} (hI : ListIface I lt) (n : Nat) :
    ∀ (i : Nat) (d : List α), i + n ≤ d.length →
      SwapReach I d (insertionLoop I 0 n i d) := by
  induction n with
  | zero =>
    intro i d _
    exact SwapReach.refl d
  | succ n ih =>
    intro i d h
    unfold insertionLoop
    have h1 := sinkLoop_reach hI i d (by omega)
    refine swapReach_trans h1 (ih (i + 1) _ ?_)
    rw [swapReach_length hI h1]
    omega

/-- The insertion sort meets the contract of `sort.Sort` on every interface over a
list whose `Less` is a strict weak order of the elements. -/
theorem insertionSortAll_contract {α : Type} [Inhabited α] {I : Interface (List α)}
    {lt : α → α → Bool} (hI : ListIface I lt) (hlt : StrictWeak lt) :
    SortContract insertionSortAll I := by
  intro d
  constructor
  · unfold insertionSortAll insertionSort
    rw [hI.len]
    cases d with
    | nil => exact SwapReach.refl _
    | cons x t =>
      apply insertionLoop_reach hI
      simp
      omega
  · intro i j hij hj
    rw [hI.len] at hj
    have hs := (insertionSortAll_spec hI hlt d).2
    rw [hI.less, at_eq_get _ j hj, at_eq_get _ i (by omega)]
    exact (List.pairwise_iff_get.1 hs) ⟨i, by omega⟩ ⟨j, hj⟩ hij

/-- What the contract of `sort.Sort` gives on an interface over a list: the result
is a permutation of the data and no element is less than one before it. -/
theorem sortContract_spec {α : Type} [Inhabited α] [DecidableEq α]
    {I : Interface (List α)} {lt : α → α → Bool} (hI : ListIface I lt)
    {sort : Interface (List α) → List α → List α} (hsort : SortContract sort I)
    (d : List α) :
    (sort I d).Perm d ∧ (sort I d).Pairwise (fun a b => lt b a = false) := by
  obtain ⟨hreach, hord⟩ := hsort d
  refine ⟨swapReach_perm hI hreach, ?_⟩
  rw [List.pairwise_iff_get]
  intro i j hij
  have h := hord i.1 j.1 hij (by rw [hI.len]; exact j.2)
  rw [hI.less, at_eq_get _ j.1 j.2, at_eq_get _ i.1 i.2] at h
  exact h

end AdventLeader

namespace AdventLeader

/-! ## The order of `SortedMembers` -/

theorem reverse_members_listIface :
    ListIface (Reverse SortedMembers.iface) (fun a b => memberLess b a) := by
  refine ⟨fun d => rfl, fun d i j => ?_, fun d i j => rfl⟩
  simp [Reverse, SortedMembers.iface, SortedMembers.Less, memberLess]

theorem memberLess_false_iff (a b : Member) :
    memberLess a b = false ↔ rankedBefore a b := by
  unfold memberLess rankedBefore
  split_ifs with h1 h2
  · simp; omega
  · simp; omega
  · simp; omega

theorem reverse_members_strictWeak :
    StrictWeak (fun a b : Member => memberLess b a) := by
  constructor
  · intro a b h
    have h2 : ¬ rankedBefore b a := fun hc => by
      rw [← memberLess_false_iff] at hc
      simp [hc] at h
    rw [memberLess_false_iff]
    unfold rankedBefore at *
    omega
  · intro a b c h1 h2
    simp only [memberLess_false_iff] at *
    unfold rankedBefore at *
    omega

theorem rank_spec (sort : Interface SortedMembers → SortedMembers → SortedMembers)
    (hsort : SortContract sort (Reverse SortedMembers.iface)) (ms : List Member) :
    (sort (Reverse SortedMembers.iface) ms).Perm ms ∧
      (sort (Reverse SortedMembers.iface) ms).Pairwise rankedBefore := by
  have h := sortContract_spec reverse_members_listIface hsort ms
  refine ⟨h.1, h.2.imp ?_⟩
  intro a b hab
  exact (memberLess_false_iff a b).1 hab

/-- The insertion sort of the sample library meets the contract of `sort.Sort` on
the reversed `SortedMembers`. -/
theorem sampleLibrary_sorts :
    SortContract sampleLibrary.sortSort (Reverse SortedMembers.iface) :=
  insertionSortAll_contract reverse_members_listIface reverse_members_strictWeak

end AdventLeader

namespace AdventLeader

/-! ## The order of times -/

theorem Time.lt_def (s t : Time) :
    s < t ↔ (t.sec > s.sec ∨ (t.sec = s.sec ∧ t.nsec > s.nsec)) := by
  show t.After s = true ↔ _
  simp [Time.After]

theorem Time.le_def (s t : Time) :
    s ≤ t ↔ ¬ (s.sec > t.sec ∨ (s.sec = t.sec ∧ s.nsec > t.nsec)) := by
  show s.After t = false ↔ _
  simp [Time.After]

theorem Time.le_trans {r s t : Time} (h₁ : r ≤ s) (h₂ : s ≤ t) : r ≤ t := by
  rw [Time.le_def] at *
  omega

theorem Time.lt_of_lt_of_le {r s t : Time} (h₁ : r < s) (h₂ : s ≤ t) : r < t := by
  rw [Time.lt_def] at *
  rw [Time.le_def] at h₂
  omega

theorem Time.lt_of_le_of_lt {r s t : Time} (h₁ : r ≤ s) (h₂ : s < t) : r < t := by
  rw [Time.lt_def] at *
  rw [Time.le_def] at h₁
  omega

theorem Time.not_lt_of_le {s t : Time} (h : s ≤ t) : ¬ t < s := by
  rw [Time.lt_def]
  rw [Time.le_def] at h
  omega

theorem Time.le_refl (t : Time) : t ≤ t := by
  rw [Time.le_def]
  omega

theorem Time.le_of_not_lt {s t : Time} (h : ¬ t < s) : s ≤ t := by
  rw [Time.le_def]
  rw [Time.lt_def] at h
  omega

theorem Time.equal_of_le_of_le {s t : Time} (h₁ : s ≤ t) (h₂ : t ≤ s) :
    s.Equal t = true := by
  rw [Time.le_def] at h₁ h₂
  simp only [Time.Equal, decide_eq_true_eq]
  omega

/-! ## The re-parse of `JSONtoNormalTime` -/

theorem JSONtoNormalTime_ok {ε : Type} (lib : Library ε) (jt : JSONTime) (v : Time)
    (h : lib.timeParse RFC3339 (lib.timeFormat jt.Time RFC3339) = Except.ok v) :
    JSONtoNormalTime lib jt = v := by
  simp [JSONtoNormalTime, h]

theorem JSONtoNormalTime_cases {ε : Type} (lib : Library ε) (jt : JSONTime) :
    JSONtoNormalTime lib jt = Time.zero ∨
      lib.timeParse RFC3339 (lib.timeFormat jt.Time RFC3339) =
        Except.ok (JSONtoNormalTime lib jt) := by
  unfold JSONtoNormalTime
  cases h : lib.timeParse RFC3339 (lib.timeFormat jt.Time RFC3339) with
  | ok v => exact Or.inr rfl
  | error e => exact Or.inl rfl

/-! ## The collection loop -/

theorem collect_foldl_fst {ε : Type} (lib : Library ε) (es : List (String × Member))
    (st : List Member × Time) :
    (es.foldl (collectStep lib) st).1 = st.1 ++ es.map Prod.snd := by
  induction es generalizing st with
  | nil => simp
  | cons e es ih =>
    rw [List.foldl_cons, ih]
    simp only [collectStep]
    split_ifs <;> simp

theorem collect_fst {ε : Type} (lib : Library ε) (leaderboard : Leaderboard) :
    (collect lib leaderboard).1 = leaderboard.Members.map Prod.snd := by
  simp [collect, collect_foldl_fst]

theorem collectStep_snd {ε : Type} (lib : Library ε) (st : List Member × Time)
    (e : String × Member) :
    (collectStep lib st e).2 =
      if (JSONtoNormalTime lib e.2.LastStarTS).After st.2 = true then
        JSONtoNormalTime lib e.2.LastStarTS
      else st.2 := by
  simp only [collectStep]
  split_ifs <;> rfl

theorem collectStep_snd_ge {ε : Type} (lib : Library ε) (st : List Member × Time)
    (e : String × Member) :
    st.2 ≤ (collectStep lib st e).2 ∧
      JSONtoNormalTime lib e.2.LastStarTS ≤ (collectStep lib st e).2 := by
  rw [collectStep_snd]
  split_ifs with h
  · refine ⟨?_, Time.le_refl _⟩
    have hlt : st.2 < JSONtoNormalTime lib e.2.LastStarTS := h
    rw [Time.le_def]
    rw [Time.lt_def] at hlt
    omega
  · refine ⟨Time.le_refl _, ?_⟩
    have hle : (JSONtoNormalTime lib e.2.LastStarTS).After st.2 = false := by
      simpa using h
    exact hle

theorem collect_foldl_snd_ge {ε : Type} (lib : Library ε) (es : List (String × Member))
    (st : List Member × Time) :
    st.2 ≤ (es.foldl (collectStep lib) st).2 ∧
      ∀ e ∈ es, JSONtoNormalTime lib e.2.LastStarTS ≤ (es.foldl (collectStep lib) st).2 := by
  induction es generalizing st with
  | nil => exact ⟨Time.le_refl _, by simp⟩
  | cons e es ih =>
    rw [List.foldl_cons]
    have h := ih (collectStep lib st e)
    have hs := collectStep_snd_ge lib st e
    refine ⟨Time.le_trans hs.1 h.1, ?_⟩
    intro e' he'
    rcases List.mem_cons.1 he' with h' | h'
    · subst h'
      exact Time.le_trans hs.2 h.1
    · exact h.2 e' h'

theorem collect_foldl_snd_mem {ε : Type} (lib : Library ε) (es : List (String × Member))
    (st : List Member × Time) :
    (es.foldl (collectStep lib) st).2 = st.2 ∨
      ∃ e ∈ es, (es.foldl (collectStep lib) st).2 = JSONtoNormalTime lib e.2.LastStarTS ∧
        st.2 < JSONtoNormalTime lib e.2.LastStarTS := by
  induction es generalizing st with
  | nil => simp
  | cons e es ih =>
    rw [List.foldl_cons]
    have hs := collectStep_snd_ge lib st e
    rcases ih (collectStep lib st e) with h | ⟨e', he', h, hlt⟩
    · rw [collectStep_snd] at h
      split_ifs at h with hafter
      · right
        exact ⟨e, List.mem_cons_self _ _, h, hafter⟩
      · left
        exact h
    · right
      exact ⟨e', List.mem_cons_of_mem _ he', h, Time.lt_of_le_of_lt hs.1 hlt⟩

theorem lastStar_le_of_perm {ε : Type} (lib : Library ε) (es es' : List (String × Member))
    (hp : es.Perm es') :
    (es.foldl (collectStep lib) ([], Time.zero)).2 ≤
      (es'.foldl (collectStep lib) ([], Time.zero)).2 := by
  have hge := collect_foldl_snd_ge lib es' ([], Time.zero)
  rcases collect_foldl_snd_mem lib es ([], Time.zero) with h | ⟨e, he, h, _⟩
  · rw [h]
    exact hge.1
  · rw [h]
    exact hge.2 e (hp.mem_iff.1 he)

theorem mainLoop_lastStar {ε : Type} (lib : Library ε) (config : Configuration)
    (leaderboard : Leaderboard) (lastUpdate now : Time) :
    (MainLoop lib config leaderboard lastUpdate now).lastStar =
      (leaderboard.Members.foldl (collectStep lib) ([], Time.zero)).2 :=
  rfl

theorem mainLoop_members {ε : Type} (lib : Library ε) (config : Configuration)
    (leaderboard : Leaderboard) (lastUpdate now : Time) :
    (MainLoop lib config leaderboard lastUpdate now).members =
      lib.sortSort (Reverse SortedMembers.iface) (leaderboard.Members.map Prod.snd) := by
  simp [MainLoop, collect_fst]

theorem mainLoop_result {ε : Type} (lib : Library ε) (config : Configuration)
    (leaderboard : Leaderboard) (lastUpdate now : Time) :
    (MainLoop lib config leaderboard lastUpdate now).result = now :=
  rfl

end AdventLeader

namespace AdventLeader

/-! ## Ranking -/

/-- C1: let `sort.Sort` keep its contract on the reversed `SortedMembers`. Then the
ranked slice built by `MainLoop` is a permutation of the leaderboard's members, has
as many elements as the leaderboard has members, and at every pair of adjacent
positions the earlier member has the greater local score, or the same local score
and at least as many stars. -/
theorem ranked_perm_and_descending {ε : Type} (lib : Library ε)
    (hsort : SortContract lib.sortSort (Reverse SortedMembers.iface))
    (config : Configuration) (leaderboard : Leaderboard) (lastUpdate now : Time) :
    (MainLoop lib config leaderboard lastUpdate now).members.Perm
        (leaderboard.Members.map Prod.snd) ∧
      (MainLoop lib config leaderboard lastUpdate now).members.length =
        leaderboard.Members.length ∧
      ∀ (i : Nat)
        (h : i + 1 < (MainLoop lib config leaderboard lastUpdate now).members.length),
        ((MainLoop lib config leaderboard lastUpdate now).members.get ⟨i, by omega⟩).LocalScore >
            ((MainLoop lib config leaderboard lastUpdate now).members.get ⟨i + 1, h⟩).LocalScore ∨
          (((MainLoop lib config leaderboard lastUpdate now).members.get ⟨i, by omega⟩).LocalScore =
              ((MainLoop lib config leaderboard lastUpdate now).members.get ⟨i + 1, h⟩).LocalScore ∧
            ((MainLoop lib config leaderboard lastUpdate now).members.get ⟨i, by omega⟩).Stars ≥
              ((MainLoop lib config leaderboard lastUpdate now).members.get ⟨i + 1, h⟩).Stars) := by
  rw [mainLoop_members]
  have h := rank_spec lib.sortSort hsort (leaderboard.Members.map Prod.snd)
  refine ⟨h.1, by simpa using h.1.length_eq, ?_⟩
  intro i hi
  exact (List.pairwise_iff_get.1 h.2) ⟨i, by omega⟩ ⟨i + 1, hi⟩ (by simp)

/-- Witness of C1 on `sampleBoard`, at the first pair of positions. -/
theorem ranked_perm_and_descending_witness :
    SortContract sampleLibrary.sortSort (Reverse SortedMembers.iface) ∧
      0 + 1 < (MainLoop sampleLibrary sampleConfig sampleBoard 0 500).members.length ∧
      (((MainLoop sampleLibrary sampleConfig sampleBoard 0 500).members.get
              ⟨0, by decide⟩).LocalScore >
          ((MainLoop sampleLibrary sampleConfig sampleBoard 0 500).members.get
              ⟨0 + 1, by decide⟩).LocalScore ∨
        (((MainLoop sampleLibrary sampleConfig sampleBoard 0 500).members.get
                ⟨0, by decide⟩).LocalScore =
            ((MainLoop sampleLibrary sampleConfig sampleBoard 0 500).members.get
                ⟨0 + 1, by decide⟩).LocalScore ∧
          ((MainLoop sampleLibrary sampleConfig sampleBoard 0 500).members.get
                ⟨0, by decide⟩).Stars ≥
            ((MainLoop sampleLibrary sampleConfig sampleBoard 0 500).members.get
                ⟨0 + 1, by decide⟩).Stars)) :=
  ⟨sampleLibrary_sorts, by decide,
    (ranked_perm_and_descending sampleLibrary sampleLibrary_sorts sampleConfig sampleBoard
      0 500).2.2 0 (by decide)⟩

theorem map_eq_of_injOn {α β : Type} (f : α → β) (l₁ : List α) :
    ∀ l₂ : List α, l₁.map f = l₂.map f →
      (∀ a ∈ l₁, ∀ b ∈ l₂, f a = f b → a = b) → l₁ = l₂ := by
  induction l₁ with
  | nil =>
    intro l₂ h _
    cases l₂ with
    | nil => rfl
    | cons b t => simp at h
  | cons a t ih =>
    intro l₂ h hinj
    cases l₂ with
    | nil => simp at h
    | cons b t₂ =>
      simp only [List.map_cons, List.cons.injEq] at h
      have hab : a = b := hinj a (by simp) b (by simp) h.1
      have ht : t = t₂ := ih t₂ h.2 (fun x hx y hy hxy =>
        hinj x (List.mem_cons_of_mem _ hx) y (List.mem_cons_of_mem _ hy) hxy)
      rw [hab, ht]

theorem ranked_keys_eq (sort : Interface SortedMembers → SortedMembers → SortedMembers)
    (hsort : SortContract sort (Reverse SortedMembers.iface)) (ms ms' : List Member)
    (hperm : ms.Perm ms') :
    (sort (Reverse SortedMembers.iface) ms).map sortKey =
      (sort (Reverse SortedMembers.iface) ms').map sortKey := by
  have h := rank_spec sort hsort ms
  have h' := rank_spec sort hsort ms'
  haveI : IsAntisymm (Int × Int) keyBefore := ⟨by
    intro a b hab hba
    unfold keyBefore at hab hba
    apply Prod.ext <;> omega⟩
  apply List.eq_of_perm_of_sorted (r := keyBefore)
  · exact ((h.1.trans hperm).trans h'.1.symm).map sortKey
  · exact List.pairwise_map.2 (h.2.imp (fun hab => hab))
  · exact List.pairwise_map.2 (h'.2.imp (fun hab => hab))

/-- C9: let `sort.Sort` keep its contract on the reversed `SortedMembers`. Then two
collection orders of the same member map give ranked slices that carry the same
(local score, stars) pair at every position, and give the same slice when no two
members share both local score and stars. -/
theorem ranking_independent_of_collection_order {ε : Type} (lib : Library ε)
    (hsort : SortContract lib.sortSort (Reverse SortedMembers.iface))
    (config config' : Configuration)
    (leaderboard leaderboard' : Leaderboard) (lastUpdate now lastUpdate' now' : Time)
    (hperm : leaderboard.Members.Perm leaderboard'.Members) :
    (MainLoop lib config leaderboard lastUpdate now).members.map sortKey =
        (MainLoop lib config' leaderboard' lastUpdate' now').members.map sortKey ∧
      ((leaderboard.Members.map Prod.snd).Pairwise
          (fun a b => ¬ (a.LocalScore = b.LocalScore ∧ a.Stars = b.Stars)) →
        (MainLoop lib config leaderboard lastUpdate now).members =
          (MainLoop lib config' leaderboard' lastUpdate' now').members) := by
  rw [mainLoop_members, mainLoop_members]
  have hp : (leaderboard.Members.map Prod.snd).Perm (leaderboard'.Members.map Prod.snd) :=
    hperm.map Prod.snd
  have hkeys := ranked_keys_eq lib.sortSort hsort _ _ hp
  refine ⟨hkeys, fun hdistinct => ?_⟩
  apply map_eq_of_injOn sortKey _ _ hkeys
  intro a ha b hb hab
  have ha' : a ∈ leaderboard.Members.map Prod.snd :=
    (rank_spec lib.sortSort hsort _).1.mem_iff.1 ha
  have hb' : b ∈ leaderboard.Members.map Prod.snd :=
    hp.mem_iff.2 ((rank_spec lib.sortSort hsort _).1.mem_iff.1 hb)
  by_contra hne
  have hsymm : Symmetric (fun a b : Member =>
      ¬ (a.LocalScore = b.LocalScore ∧ a.Stars = b.Stars)) := by
    intro x y hxy hc
    exact hxy ⟨hc.1.symm, hc.2.symm⟩
  have := hdistinct.forall hsymm ha' hb' hne
  apply this
  simp only [sortKey, Prod.mk.injEq] at hab
  exact hab

/-- Witness of C9 on `sampleBoard` and a second iteration order of its members. -/
theorem ranking_independent_of_collection_order_witness :
    SortContract sampleLibrary.sortSort (Reverse SortedMembers.iface) ∧
      sampleBoard.Members.Perm sampleBoardShuffled.Members ∧
      (MainLoop sampleLibrary sampleConfig sampleBoard 0 500).members.map sortKey =
        (MainLoop sampleLibrary sampleConfig sampleBoardShuffled 0 500).members.map sortKey ∧
      (MainLoop sampleLibrary sampleConfig sampleBoard 0 500).members =
        (MainLoop sampleLibrary sampleConfig sampleBoardShuffled 0 500).members :=
  have hp : sampleBoard.Members.Perm sampleBoardShuffled.Members := by decide
  have h := ranking_independent_of_collection_order sampleLibrary sampleLibrary_sorts
    sampleConfig sampleConfig sampleBoard sampleBoardShuffled 0 500 0 500 hp
  ⟨sampleLibrary_sorts, hp, h.1, h.2 (by decide)⟩

end AdventLeader

namespace AdventLeader

/-! ## Change gate, newest star, poll loop -/

theorem lastStar_newer_iff {ε : Type} (lib : Library ε) (es : List (String × Member))
    (lastUpdate : Time) :
    lastUpdate < (es.foldl (collectStep lib) ([], Time.zero)).2 ↔
      (lastUpdate < Time.zero ∨
        ∃ e ∈ es, ∃ v : Time,
          lib.timeParse RFC3339 (lib.timeFormat e.2.LastStarTS.Time RFC3339) = Except.ok v ∧
            lastUpdate < v) := by
  have hge := collect_foldl_snd_ge lib es ([], Time.zero)
  have hmem := collect_foldl_snd_mem lib es ([], Time.zero)
  constructor
  · intro h
    rcases hmem with h0 | ⟨e, he, h1, _⟩
    · left
      rw [h0] at h
      exact h
    · rcases JSONtoNormalTime_cases lib e.2.LastStarTS with hz | hok
      · left
        rw [h1, hz] at h
        exact h
      · right
        refine ⟨e, he, JSONtoNormalTime lib e.2.LastStarTS, hok, ?_⟩
        rw [h1] at h
        exact h
  · rintro (h | ⟨e, he, v, hok, hlt⟩)
    · exact Time.lt_of_lt_of_le h hge.1
    · have := hge.2 e he
      rw [JSONtoNormalTime_ok lib _ v hok] at this
      exact Time.lt_of_lt_of_le hlt this

/-- C2: `MainLoop` posts exactly when debug mode is on or `lastStar` is strictly
after `lastUpdate`, and what it posts is the message. In terms of the inputs,
`lastStar` is after `lastUpdate` exactly when the zero time is, or the re-parsed
timestamp of some member is. With debug on it posts whatever the timestamps are;
with debug off it posts exactly when `lastStar` is after `lastUpdate`, so not when
the two are equal. -/
theorem posts_iff_debug_or_newer {ε : Type} (lib : Library ε) (config : Configuration)
    (leaderboard : Leaderboard) (lastUpdate now : Time) :
    ((MainLoop lib config leaderboard lastUpdate now).posted.isSome = true ↔
        (config.Debug = true ∨
          lastUpdate < (MainLoop lib config leaderboard lastUpdate now).lastStar)) ∧
      ((MainLoop lib config leaderboard lastUpdate now).posted.isSome = true ↔
        (config.Debug = true ∨ lastUpdate < Time.zero ∨
          ∃ e ∈ leaderboard.Members, ∃ v : Time,
            lib.timeParse RFC3339 (lib.timeFormat e.2.LastStarTS.Time RFC3339) =
                Except.ok v ∧
              lastUpdate < v)) ∧
      ((MainLoop lib config leaderboard lastUpdate now).posted.isSome = true →
        (MainLoop lib config leaderboard lastUpdate now).posted =
          some (MainLoop lib config leaderboard lastUpdate now).message) ∧
      (config.Debug = true →
        (MainLoop lib config leaderboard lastUpdate now).posted.isSome = true) ∧
      (config.Debug = false →
        ((MainLoop lib config leaderboard lastUpdate now).posted.isSome = true ↔
          lastUpdate < (MainLoop lib config leaderboard lastUpdate now).lastStar)) ∧
      (config.Debug = false →
        (MainLoop lib config leaderboard lastUpdate now).lastStar = lastUpdate →
        (MainLoop lib config leaderboard lastUpdate now).posted = none) := by
  have hgate : (MainLoop lib config leaderboard lastUpdate now).posted.isSome = true ↔
      (config.Debug = true ∨
        lastUpdate < (MainLoop lib config leaderboard lastUpdate now).lastStar) := by
    show _ ↔ (config.Debug = true ∨
      (MainLoop lib config leaderboard lastUpdate now).lastStar.After lastUpdate = true)
    simp only [MainLoop]
    by_cases hd : config.Debug = true <;>
      by_cases hs : (collect lib leaderboard).2.After lastUpdate = true <;> simp [hd, hs]
  have hposted : (MainLoop lib config leaderboard lastUpdate now).posted.isSome = true →
      (MainLoop lib config leaderboard lastUpdate now).posted =
        some (MainLoop lib config leaderboard lastUpdate now).message := by
    simp only [MainLoop]
    split_ifs <;> simp
  refine ⟨hgate, ?_, hposted, ?_, ?_, ?_⟩
  · rw [hgate, mainLoop_lastStar, lastStar_newer_iff]
  · intro hd
    exact hgate.2 (Or.inl hd)
  · intro hd
    rw [hgate]
    simp [hd]
  · intro hd heq
    have hno : ¬ (MainLoop lib config leaderboard lastUpdate now).posted.isSome = true := by
      rw [hgate, heq]
      intro h
      rcases h with h | h
      · rw [hd] at h
        exact absurd h (by decide)
      · exact Time.not_lt_of_le (Time.le_refl lastUpdate) h
    cases hp : (MainLoop lib config leaderboard lastUpdate now).posted with
    | none => rfl
    | some m => simp [hp] at hno

/-- Witness of C2: debug off; a star of `sampleA` newer than `lastUpdate = 50` is
posted, and nothing is posted when `lastUpdate` equals `lastStar`. -/
theorem posts_iff_debug_or_newer_witness :
    (sampleConfig.Debug = false ∧
        (∃ e ∈ sampleBoard.Members, ∃ v : Time,
          sampleLibrary.timeParse RFC3339
              (sampleLibrary.timeFormat e.2.LastStarTS.Time RFC3339) = Except.ok v ∧
            50 < v) ∧
        (MainLoop sampleLibrary sampleConfig sampleBoard 50 500).posted.isSome = true) ∧
      ((MainLoop sampleLibrary sampleConfig sampleBoard 100 500).lastStar = 100 ∧
        (MainLoop sampleLibrary sampleConfig sampleBoard 100 500).posted = none) :=
  have hnew : ∃ e ∈ sampleBoard.Members, ∃ v : Time,
      sampleLibrary.timeParse RFC3339
          (sampleLibrary.timeFormat e.2.LastStarTS.Time RFC3339) = Except.ok v ∧
        50 < v :=
    ⟨("A1", sampleA), by decide, 100, rfl, by decide⟩
  ⟨⟨by decide, hnew,
      (posts_iff_debug_or_newer sampleLibrary sampleConfig sampleBoard 50 500).2.1.2
        (Or.inr (Or.inr hnew))⟩,
    ⟨by decide,
      (posts_iff_debug_or_newer sampleLibrary sampleConfig sampleBoard 100 500).2.2.2.2.2
        (by decide) (by decide)⟩⟩

/-- C4 fails as stated. The only member of `sampleBoardHalf` has the timestamp that
`timeLayout` reads from `2017-12-01T05:00:00.5-0500`; its RFC 3339 text has no
fraction, so `lastStar` is the whole second before it and the timestamp of no member.
On `sampleBoardFarEast` the member read from the offset `+2460` prints the offset
`+25:00`, the re-parse fails, `JSONtoNormalTime` returns the zero time, and `lastStar`
stays at the older star of `sampleA`. -/
theorem lastStar_below_member_timestamp :
    (sampleParse timeLayout "2017-12-01T05:00:00.5-0500" = Except.ok sampleH.LastStarTS.Time ∧
        sampleBoardHalf.Members = [("H1", sampleH)] ∧
        (MainLoop sampleLibrary sampleConfig sampleBoardHalf 0 500).lastStar = sampleDawn ∧
        (MainLoop sampleLibrary sampleConfig sampleBoardHalf 0 500).lastStar <
          sampleH.LastStarTS.Time ∧
        ¬ (∀ e ∈ sampleBoardHalf.Members,
            e.2.LastStarTS.Time ≤
              (MainLoop sampleLibrary sampleConfig sampleBoardHalf 0 500).lastStar) ∧
        (∃ e ∈ sampleBoardHalf.Members, Time.zero < e.2.LastStarTS.Time) ∧
        ¬ (∃ e ∈ sampleBoardHalf.Members,
            (MainLoop sampleLibrary sampleConfig sampleBoardHalf 0 500).lastStar =
              e.2.LastStarTS.Time)) ∧
      (sampleBoardFarEast.Members = [("A1", sampleA), ("W1", sampleW)] ∧
        JSONtoNormalTime sampleLibrary sampleW.LastStarTS = Time.zero ∧
        (MainLoop sampleLibrary sampleConfig sampleBoardFarEast 0 500).lastStar = 100 ∧
        (MainLoop sampleLibrary sampleConfig sampleBoardFarEast 0 500).lastStar <
          sampleW.LastStarTS.Time) :=
  ⟨⟨rfl, rfl, by decide, by decide, by decide, by decide, by decide⟩,
    ⟨rfl, by decide, by decide, by decide⟩⟩

/-- C4, amended: `lastStar` is the greatest of the zero time and the members'
timestamps as `JSONtoNormalTime` re-parses them from their RFC 3339 text. It is not
before the zero time nor before any re-parsed timestamp, and it is the zero time or
one of the re-parsed timestamps. When the re-parse gives back the timestamp of every
member, `lastStar` is not before any member's timestamp, is the timestamp of some
member if one is after the zero time, and is the zero time otherwise. For every
iteration order of the member map it is the same instant. -/
theorem lastStar_is_maximum_of_reparsed {ε : Type} (lib : Library ε)
    (config : Configuration) (leaderboard : Leaderboard) (lastUpdate now : Time) :
    Time.zero ≤ (MainLoop lib config leaderboard lastUpdate now).lastStar ∧
      (∀ e ∈ leaderboard.Members, ∀ v : Time,
        lib.timeParse RFC3339 (lib.timeFormat e.2.LastStarTS.Time RFC3339) = Except.ok v →
          v ≤ (MainLoop lib config leaderboard lastUpdate now).lastStar) ∧
      ((MainLoop lib config leaderboard lastUpdate now).lastStar = Time.zero ∨
        ∃ e ∈ leaderboard.Members,
          lib.timeParse RFC3339 (lib.timeFormat e.2.LastStarTS.Time RFC3339) =
            Except.ok (MainLoop lib config leaderboard lastUpdate now).lastStar) ∧
      ((∀ e ∈ leaderboard.Members,
          lib.timeParse RFC3339 (lib.timeFormat e.2.LastStarTS.Time RFC3339) =
            Except.ok e.2.LastStarTS.Time) →
        (∀ e ∈ leaderboard.Members,
            e.2.LastStarTS.Time ≤ (MainLoop lib config leaderboard lastUpdate now).lastStar) ∧
          ((∃ e ∈ leaderboard.Members, Time.zero < e.2.LastStarTS.Time) →
            ∃ e ∈ leaderboard.Members,
              (MainLoop lib config leaderboard lastUpdate now).lastStar =
                e.2.LastStarTS.Time) ∧
          ((¬ ∃ e ∈ leaderboard.Members, Time.zero < e.2.LastStarTS.Time) →
            (MainLoop lib config leaderboard lastUpdate now).lastStar = Time.zero)) ∧
      (∀ leaderboard' : Leaderboard, leaderboard.Members.Perm leaderboard'.Members →
        ((MainLoop lib config leaderboard' lastUpdate now).lastStar.Equal
          (MainLoop lib config leaderboard lastUpdate now).lastStar) = true) := by
  have hge := collect_foldl_snd_ge lib leaderboard.Members ([], Time.zero)
  have hmem := collect_foldl_snd_mem lib leaderboard.Members ([], Time.zero)
  simp only [mainLoop_lastStar]
  refine ⟨hge.1, ?_, ?_, ?_, ?_⟩
  · intro e he v hok
    have := hge.2 e he
    rw [JSONtoNormalTime_ok lib _ v hok] at this
    exact this
  · rcases hmem with h | ⟨e, he, h, _⟩
    · exact Or.inl h
    · rcases JSONtoNormalTime_cases lib e.2.LastStarTS with hz | hok
      · left
        rw [h, hz]
      · right
        refine ⟨e, he, ?_⟩
        rw [h]
        exact hok
  · intro hexact
    have hn : ∀ e ∈ leaderboard.Members,
        JSONtoNormalTime lib e.2.LastStarTS = e.2.LastStarTS.Time := fun e he =>
      JSONtoNormalTime_ok lib _ _ (hexact e he)
    refine ⟨?_, ?_, ?_⟩
    · intro e he
      have := hge.2 e he
      rw [hn e he] at this
      exact this
    · rintro ⟨e, he, hpos⟩
      rcases hmem with h | ⟨e', he', h, _⟩
      · have hle := hge.2 e he
        rw [hn e he, h] at hle
        exact absurd hpos (Time.not_lt_of_le hle)
      · exact ⟨e', he', by rw [h, hn e' he']⟩
    · intro hnone
      rcases hmem with h | ⟨e', he', _, hlt⟩
      · exact h
      · rw [hn e' he'] at hlt
        exact absurd ⟨e', he', hlt⟩ hnone
  · intro l' hp
    exact Time.equal_of_le_of_le (lastStar_le_of_perm lib _ _ hp.symm)
      (lastStar_le_of_perm lib _ _ hp)

/-- Witness of C4, amended, on `sampleBoard`: the re-parse gives back each of its
timestamps, and the newest star is the one of `sampleA`. -/
theorem lastStar_is_maximum_of_reparsed_witness :
    (∀ e ∈ sampleBoard.Members,
        sampleLibrary.timeParse RFC3339
            (sampleLibrary.timeFormat e.2.LastStarTS.Time RFC3339) =
          Except.ok e.2.LastStarTS.Time) ∧
      (∃ e ∈ sampleBoard.Members, Time.zero < e.2.LastStarTS.Time) ∧
      (∃ e ∈ sampleBoard.Members,
        (MainLoop sampleLibrary sampleConfig sampleBoard 0 500).lastStar =
          e.2.LastStarTS.Time) ∧
      sampleBoard.Members.Perm sampleBoardShuffled.Members ∧
      ((MainLoop sampleLibrary sampleConfig sampleBoardShuffled 0 500).lastStar.Equal
        (MainLoop sampleLibrary sampleConfig sampleBoard 0 500).lastStar) = true :=
  have hexact : ∀ e ∈ sampleBoard.Members,
      sampleLibrary.timeParse RFC3339
          (sampleLibrary.timeFormat e.2.LastStarTS.Time RFC3339) =
        Except.ok e.2.LastStarTS.Time := by
    intro e he
    simp only [sampleBoard, List.mem_cons, List.mem_singleton, List.not_mem_nil,
      or_false] at he
    rcases he with h | h | h <;> subst h <;> rfl
  have hpos : ∃ e ∈ sampleBoard.Members, Time.zero < e.2.LastStarTS.Time :=
    ⟨("A1", sampleA), by decide, by decide⟩
  have hp : sampleBoard.Members.Perm sampleBoardShuffled.Members := by decide
  have h := lastStar_is_maximum_of_reparsed sampleLibrary sampleConfig sampleBoard 0 500
  ⟨hexact, hpos, (h.2.2.2.1 hexact).2.1 hpos, hp, h.2.2.2.2 sampleBoardShuffled hp⟩

/-- C5, evaluated: with debug off and no star newer than `lastUpdate = 1000`,
`MainLoop` of `adventleader.go` posts nothing and still returns the clock reading
`1300` instead of the `lastUpdate` it was given. -/
theorem mainLoop_gate_closed_returns_now :
    sampleConfig.Debug = false ∧
      ¬ (1000 < (MainLoop sampleLibrary sampleConfig sampleBoard 1000 1300).lastStar) ∧
      (MainLoop sampleLibrary sampleConfig sampleBoard 1000 1300).posted = none ∧
      (MainLoop sampleLibrary sampleConfig sampleBoard 1000 1300).result = 1300 ∧
      (MainLoop sampleLibrary sampleConfig sampleBoard 1000 1300).result ≠ 1000 := by
  decide

theorem pollLoop_le_of_clock {ε : Type} (lib : Library ε) (config : Configuration)
    (cycles : List (Leaderboard × Time)) :
    ∀ (start now : Time),
      List.Chain (fun s t : Time => s ≤ t) start (cycles.map Prod.snd ++ [now]) →
      pollLoop lib config start cycles ≤ now := by
  induction cycles with
  | nil =>
    intro start now h
    simpa [pollLoop] using h
  | cons c cs ih =>
    intro start now h
    simp only [List.map_cons, List.cons_append, List.chain_cons] at h
    have := ih c.2 now h.2
    simpa [pollLoop, mainLoop_result] using this

/-- C8: let the clock readings of the process start and of the successive cycles
never decrease. Then from every state the poll loop of `adventleader.go` reaches,
the `lastUpdate` produced by the next cycle is at least the `lastUpdate` that the
cycle started with. -/
theorem pollState_never_moves_backward {ε : Type} (lib : Library ε)
    (config : Configuration) (start : Time)
    (cycles : List (Leaderboard × Time)) (leaderboard : Leaderboard) (now : Time)
    (hclock : List.Chain (fun s t : Time => s ≤ t) start
      (cycles.map Prod.snd ++ [now])) :
    pollLoop lib config start cycles ≤
      (MainLoop lib config leaderboard (pollLoop lib config start cycles) now).result := by
  rw [mainLoop_result]
  exact pollLoop_le_of_clock lib config cycles start now hclock

/-- Witness of C8: start at 1000, one earlier cycle at 1300, the next at 1600. -/
theorem pollState_never_moves_backward_witness :
    List.Chain (fun s t : Time => s ≤ t) 1000
        ([(sampleBoard, (1300 : Time))].map Prod.snd ++ [1600]) ∧
      pollLoop sampleLibrary sampleConfig 1000 [(sampleBoard, 1300)] ≤
        (MainLoop sampleLibrary sampleConfig sampleBoardNoStars
          (pollLoop sampleLibrary sampleConfig 1000 [(sampleBoard, 1300)]) 1600).result :=
  have hc : List.Chain (fun s t : Time => s ≤ t) 1000
      ([(sampleBoard, (1300 : Time))].map Prod.snd ++ [1600]) := by
    simp only [List.map_cons, List.map_nil, List.cons_append, List.nil_append,
      List.chain_cons, List.Chain.nil, and_true]
    exact ⟨by decide, by decide⟩
  ⟨hc, pollState_never_moves_backward sampleLibrary sampleConfig 1000 [(sampleBoard, 1300)]
    sampleBoardNoStars 1600 hc⟩

end AdventLeader

namespace AdventLeader

/-! ## Decimal formatting -/

theorem fmtDigits_acc (fuel : Nat) :
    ∀ (u : Nat) (buf : List Char), fmtDigits fuel u buf = fmtDigits fuel u [] ++ buf := by
  induction fuel with
  | zero =>
    intro u buf
    simp [fmtDigits]
  | succ fuel ih =>
    intro u buf
    unfold fmtDigits
    split_ifs
    · rw [ih (u / 10) (digitChar (u - u / 10 * 10) :: buf),
        ih (u / 10) [digitChar (u - u / 10 * 10)]]
      simp
    · simp

theorem digitChar_toNat (d : Nat) (h : d < 10) : (digitChar d).toNat - 48 = d := by
  interval_cases d <;> rfl

theorem digitChar_isDigit (d : Nat) (h : d < 10) : (digitChar d).isDigit = true := by
  interval_cases d <;> rfl

theorem decodeNat_append_singleton (l : List Char) (c : Char) :
    decodeNat (l ++ [c]) = 10 * decodeNat l + (c.toNat - 48) := by
  simp [decodeNat, List.foldl_append]

theorem decodeNat_fmtDigits (fuel : Nat) :
    ∀ u : Nat, u ≤ fuel → decodeNat (fmtDigits fuel u []) = u := by
  induction fuel with
  | zero =>
    intro u hu
    have : u = 0 := by omega
    subst this
    rfl
  | succ fuel ih =>
    intro u hu
    unfold fmtDigits
    split_ifs with h
    · rw [fmtDigits_acc, decodeNat_append_singleton, ih (u / 10) (by omega),
        digitChar_toNat _ (by omega)]
      omega
    · have hu10 : u < 10 := by omega
      simp [decodeNat, digitChar_toNat u hu10]

theorem fmtDigits_isDigit (fuel : Nat) :
    ∀ u : Nat, u ≤ fuel → ∀ c ∈ fmtDigits fuel u [], c.isDigit = true := by
  induction fuel with
  | zero =>
    intro u hu c hc
    have : u = 0 := by omega
    subst this
    simp only [fmtDigits, List.mem_singleton] at hc
    rw [hc]
    rfl
  | succ fuel ih =>
    intro u hu c hc
    unfold fmtDigits at hc
    split_ifs at hc with h
    · rw [fmtDigits_acc] at hc
      rcases List.mem_append.1 hc with h1 | h1
      · exact ih (u / 10) (by omega) c h1
      · simp only [List.mem_singleton] at h1
        rw [h1]
        exact digitChar_isDigit _ (by omega)
    · simp only [List.mem_singleton] at hc
      rw [hc]
      exact digitChar_isDigit _ (by omega)

theorem fmtDigits_length_pos (fuel u : Nat) : 1 ≤ (fmtDigits fuel u []).length := by
  cases fuel with
  | zero => simp [fmtDigits]
  | succ fuel =>
    unfold fmtDigits
    split_ifs
    · rw [fmtDigits_acc]
      simp
    · simp

theorem fmtDigits_length_le (fuel : Nat) :
    ∀ (u k : Nat), 1 ≤ k → u < 10 ^ k → (fmtDigits fuel u []).length ≤ k := by
  induction fuel with
  | zero =>
    intro u k hk _
    simpa [fmtDigits] using hk
  | succ fuel ih =>
    intro u k hk hu
    unfold fmtDigits
    split_ifs with h
    · obtain ⟨j, rfl⟩ : ∃ j, k = j + 1 := ⟨k - 1, by omega⟩
      have hj : 1 ≤ j := by
        rcases Nat.eq_zero_or_pos j with h0 | h0
        · subst h0
          simp at hu
          omega
        · exact h0
      have hdiv : u / 10 < 10 ^ j := by
        rw [Nat.div_lt_iff_lt_mul (by decide)]
        rw [pow_succ] at hu
        exact hu
      have := ih (u / 10) j hj hdiv
      rw [fmtDigits_acc]
      simp
      exact this
    · simpa using hk

theorem decodeNat_replicate_zero (k : Nat) (l : List Char) :
    decodeNat (List.replicate k (digitChar 0) ++ l) = decodeNat l := by
  induction k with
  | zero => simp
  | succ k ih =>
    have h0 : (digitChar 0).toNat - 48 = 0 := rfl
    simp only [decodeNat, List.replicate_succ, List.cons_append, List.foldl_cons, h0] at ih ⊢
    exact ih

theorem decodeInt_of_isDigit (l : List Char) (h : ∀ c ∈ l, c.isDigit = true) :
    decodeInt l = (decodeNat l : Int) := by
  unfold decodeInt
  cases l with
  | nil => simp
  | cons c t =>
    have hc := h c (by simp)
    have hne : c ≠ Char.ofNat 45 := by
      intro he
      rw [he] at hc
      exact absurd hc (by decide)
    simp [hne]

/-- What `%0<wid>d` prints: at least `wid` characters that read back as the value;
digits only for a value that is not negative, and no more than `k` of them when the
value is below `10 ^ k` and `wid ≤ k`. -/
theorem fmtInteger_spec (v : Int) (wid : Nat) :
    wid ≤ (fmtInteger v wid).length ∧ decodeInt (fmtInteger v wid) = v ∧
      (0 ≤ v → ∀ c ∈ fmtInteger v wid, c.isDigit = true) ∧
      (∀ k : Nat, 1 ≤ k → wid ≤ k → 0 ≤ v → v < 10 ^ k → (fmtInteger v wid).length ≤ k) := by
  have hpos := fmtDigits_length_pos v.natAbs v.natAbs
  have hdec := decodeNat_fmtDigits v.natAbs v.natAbs (le_refl _)
  have hdig := fmtDigits_isDigit v.natAbs v.natAbs (le_refl _)
  by_cases hv : v < 0
  · have hf : fmtInteger v wid = Char.ofNat 45 ::
        (List.replicate (wid - 1 - (fmtDigits v.natAbs v.natAbs []).length) (digitChar 0) ++
          fmtDigits v.natAbs v.natAbs []) := by
      simp [fmtInteger, hv]
    rw [hf]
    refine ⟨?_, ?_, ?_, ?_⟩
    · simp
      omega
    · simp only [decodeInt, List.head?_cons, List.tail_cons, if_true]
      rw [decodeNat_replicate_zero, hdec]
      omega
    · intro h0
      omega
    · intro k _ _ h0
      omega
  · have hf : fmtInteger v wid =
        List.replicate (wid - (fmtDigits v.natAbs v.natAbs []).length) (digitChar 0) ++
          fmtDigits v.natAbs v.natAbs [] := by
      simp [fmtInteger, hv]
    have hall : ∀ c ∈ fmtInteger v wid, c.isDigit = true := by
      rw [hf]
      intro c hc
      rcases List.mem_append.1 hc with h1 | h1
      · rw [(List.mem_replicate.1 h1).2]
        rfl
      · exact hdig c h1
    refine ⟨?_, ?_, fun _ => hall, ?_⟩
    · rw [hf]
      simp
      omega
    · rw [decodeInt_of_isDigit _ hall, hf, decodeNat_replicate_zero, hdec]
      omega
    · intro k hk hwk h0 hlt
      have hu : v.natAbs < 10 ^ k := by
        have : (v.natAbs : Int) < ((10 ^ k : Nat) : Int) := by
          rw [Int.natAbs_of_nonneg h0]
          push_cast
          exact hlt
        exact_mod_cast this
      have := fmtDigits_length_le v.natAbs v.natAbs k hk hu
      rw [hf]
      simp
      omega

end AdventLeader

namespace AdventLeader

/-! ## Rendering -/

theorem renderStep_eq (message : String) (m : Member) :
    renderStep message m = message ++ memberLine m := by
  unfold memberLine renderStep
  by_cases h1 : m.Stars > 0 <;> by_cases h2 : m.GlobalScore > 0 <;>
    simp [h1, h2, String.append_assoc]

theorem foldl_renderStep (ms : List Member) :
    ∀ message : String,
      ms.foldl renderStep message = message ++ concatLines (ms.map memberLine) := by
  induction ms with
  | nil =>
    intro message
    simp [concatLines]
  | cons m ms ih =>
    intro message
    rw [List.foldl_cons, ih, renderStep_eq]
    simp [concatLines, String.append_assoc]

/-- C6: the message is the header followed by the text of each ranked member, and
the text of a member with at least one star is one line made of the local score
printed in at least 3 characters (exactly 3 digits from 0 to 999), the star count
in at least 2 characters (exactly 2 digits from 1 to 99), both reading back as the
number, the name, or the id when the name is empty, and the global-score suffix,
present exactly when the global score is positive. -/
theorem starred_member_line {ε : Type} (lib : Library ε) (config : Configuration)
    (leaderboard : Leaderboard) (lastUpdate now : Time) :
    (MainLoop lib config leaderboard lastUpdate now).message =
        header (TrimSuffix config.URL ".json") ++
          concatLines ((MainLoop lib config leaderboard lastUpdate now).members.map memberLine) ∧
      ∀ m ∈ (MainLoop lib config leaderboard lastUpdate now).members, m.Stars > 0 →
        ∃ (score stars : List Char) (name globalPart : String),
          memberLine m =
              " 1. 📈 `" ++ String.mk score ++ "` ⭐ `" ++ String.mk stars ++ "` – **" ++
                name ++ "** " ++ globalPart ++ "\n" ∧
            3 ≤ score.length ∧ decodeInt score = m.LocalScore ∧
            (0 ≤ m.LocalScore → ∀ c ∈ score, c.isDigit = true) ∧
            (0 ≤ m.LocalScore → m.LocalScore ≤ 999 → score.length = 3) ∧
            2 ≤ stars.length ∧ decodeInt stars = m.Stars ∧
            (∀ c ∈ stars, c.isDigit = true) ∧
            (m.Stars ≤ 99 → stars.length = 2) ∧
            (m.Name ≠ "" → name = m.Name) ∧ (m.Name = "" → name = m.ID) ∧
            (m.GlobalScore > 0 →
              ∃ g : List Char, globalPart = " (🌍 _" ++ String.mk g ++ "_!)" ∧
                decodeInt g = m.GlobalScore ∧ ∀ c ∈ g, c.isDigit = true) ∧
            (¬ m.GlobalScore > 0 → globalPart = "") := by
  refine ⟨?_, ?_⟩
  · simp only [MainLoop]
    exact foldl_renderStep _ _
  · intro m _ hstars
    have hs := fmtInteger_spec m.LocalScore 3
    have ht := fmtInteger_spec m.Stars 2
    have hg := fmtInteger_spec m.GlobalScore 0
    refine ⟨fmtInteger m.LocalScore 3, fmtInteger m.Stars 2, displayName m,
      if m.GlobalScore > 0 then " (🌍 _" ++ String.mk (fmtInteger m.GlobalScore 0) ++ "_!)"
      else "", ?_, hs.1, hs.2.1, hs.2.2.1, ?_, ht.1, ht.2.1, ht.2.2.1 (by omega), ?_, ?_, ?_,
      ?_, ?_⟩
    · unfold memberLine renderStep
      by_cases h2 : m.GlobalScore > 0 <;> simp [hstars, h2, String.append_assoc]
    · intro h0 h999
      have := hs.2.2.2 3 (by decide) (by decide) h0 (by norm_num; omega)
      omega
    · intro h99
      have := ht.2.2.2 2 (by decide) (by decide) (by omega) (by norm_num; omega)
      omega
    · intro hn
      simp [displayName, hn]
    · intro hn
      simp [displayName, hn]
    · intro h2
      exact ⟨fmtInteger m.GlobalScore 0, by simp [h2], hg.2.1, hg.2.2.1 (by omega)⟩
    · intro h2
      simp [h2]

/-- Witness of C6 on `sampleBoard` and its member `sampleB`. -/
theorem starred_member_line_witness :
    sampleB ∈ (MainLoop sampleLibrary sampleConfig sampleBoard 0 500).members ∧ sampleB.Stars > 0 ∧
      memberLine sampleB = " 1. 📈 `080` ⭐ `02` – **Bob**  (🌍 _7_!)\n" ∧
      ∃ (score stars : List Char) (name globalPart : String),
        memberLine sampleB =
            " 1. 📈 `" ++ String.mk score ++ "` ⭐ `" ++ String.mk stars ++ "` – **" ++
              name ++ "** " ++ globalPart ++ "\n" ∧
          3 ≤ score.length ∧ decodeInt score = sampleB.LocalScore ∧
          (0 ≤ sampleB.LocalScore → ∀ c ∈ score, c.isDigit = true) ∧
          (0 ≤ sampleB.LocalScore → sampleB.LocalScore ≤ 999 → score.length = 3) ∧
          2 ≤ stars.length ∧ decodeInt stars = sampleB.Stars ∧
          (∀ c ∈ stars, c.isDigit = true) ∧
          (sampleB.Stars ≤ 99 → stars.length = 2) ∧
          (sampleB.Name ≠ "" → name = sampleB.Name) ∧ (sampleB.Name = "" → name = sampleB.ID) ∧
          (sampleB.GlobalScore > 0 →
            ∃ g : List Char, globalPart = " (🌍 _" ++ String.mk g ++ "_!)" ∧
              decodeInt g = sampleB.GlobalScore ∧ ∀ c ∈ g, c.isDigit = true) ∧
          (¬ sampleB.GlobalScore > 0 → globalPart = "") :=
  ⟨by decide, by decide, by decide,
    (starred_member_line sampleLibrary sampleConfig sampleBoard 0 500).2 sampleB (by decide) (by decide)⟩

/-- C3, evaluated: on a leaderboard whose only member has no star and no global
score, the message of `MainLoop` is the header followed by a newline, one
character longer than the header alone. -/
theorem zero_star_member_adds_newline :
    sampleZ.Stars = 0 ∧ sampleBoardNoStars.Members = [("Z1", sampleZ)] ∧
      memberLine sampleZ = "\n" ∧
      (MainLoop sampleLibrary sampleConfig sampleBoardNoStars 0 500).message =
        header "https://example.org/board/1" ++ "\n" ∧
      (MainLoop sampleLibrary sampleConfig sampleBoardNoStars 0 500).message ≠
        header "https://example.org/board/1" := by
  decide

/-! ## Time codec -/

/-- C7: when the text between the quotes is `null`, `UnmarshalJSON` stores the zero
time and returns no error; otherwise it returns an error exactly when `time.Parse`
fails on that text under `timeLayout`, the error being the one of `time.Parse`, and
when `time.Parse` succeeds it stores the parsed time. -/
theorem unmarshalJSON_spec {ε : Type} (timeParse : String → String → Except ε Time)
    (t : JSONTime) (b : String) :
    timeLayout = "2006-01-02T15:04:05-0700" ∧
      (Trim b (String.mk [Char.ofNat 34]) = "null" →
        UnmarshalJSON timeParse t b = ({ Time := Time.zero }, none)) ∧
      (Trim b (String.mk [Char.ofNat 34]) ≠ "null" →
        ((∀ e : ε, (UnmarshalJSON timeParse t b).2 = some e ↔
            timeParse timeLayout (Trim b (String.mk [Char.ofNat 34])) = Except.error e) ∧
          ((UnmarshalJSON timeParse t b).2 = none ↔
            ∃ v, timeParse timeLayout (Trim b (String.mk [Char.ofNat 34])) = Except.ok v) ∧
          ∀ v : Time, timeParse timeLayout (Trim b (String.mk [Char.ofNat 34])) = Except.ok v →
            UnmarshalJSON timeParse t b = ({ Time := v }, none))) := by
  refine ⟨rfl, ?_, ?_⟩
  · intro h
    simp [UnmarshalJSON, h]
  · intro h
    unfold UnmarshalJSON
    simp only [h, if_false]
    cases hp : timeParse timeLayout (Trim b (String.mk [Char.ofNat 34])) with
    | ok v => simp
    | error e => simp

/-- Witness of C7: the quoted `null`, a quoted well-formed time, a malformed text. -/
theorem unmarshalJSON_spec_witness :
    (Trim "\"null\"" (String.mk [Char.ofNat 34]) = "null" ∧
        UnmarshalJSON sampleParse { Time := 5 } "\"null\"" = ({ Time := Time.zero }, none)) ∧
      (Trim "\"2017-12-01T05:00:00-0500\"" (String.mk [Char.ofNat 34]) ≠ "null" ∧
        sampleParse timeLayout (Trim "\"2017-12-01T05:00:00-0500\"" (String.mk [Char.ofNat 34])) =
          Except.ok sampleDawn ∧
        UnmarshalJSON sampleParse { Time := 5 } "\"2017-12-01T05:00:00-0500\"" =
          ({ Time := sampleDawn }, none)) :=
  ⟨⟨by decide,
      (unmarshalJSON_spec sampleParse { Time := 5 } "\"null\"").2.1 (by decide)⟩,
    ⟨by decide, rfl,
      ((unmarshalJSON_spec sampleParse { Time := 5 } "\"2017-12-01T05:00:00-0500\"").2.2
        (by decide)).2.2 sampleDawn rfl⟩⟩

end AdventLeader

namespace MainGo

open AdventLeader

/-- C10, evaluated: on a leaderboard with two members of local score 50, `MainLoop`
of `main.go` renders both lines from the member stored last under the key 50, so
the other member is on no line and the members shown are no permutation of the
leaderboard's members. -/
theorem equal_scores_show_one_member_twice :
    sampleBoardTie.Members.map Prod.snd = [sampleA, sampleC] ∧
      sampleA.LocalScore = sampleC.LocalScore ∧
      (MainLoop sampleLibrary sampleConfig sampleBoardTie 0 500).shown = [sampleC, sampleC] ∧
      sampleA ∉ (MainLoop sampleLibrary sampleConfig sampleBoardTie 0 500).shown ∧
      ¬ (MainLoop sampleLibrary sampleConfig sampleBoardTie 0 500).shown.Perm
        (sampleBoardTie.Members.map Prod.snd) ∧
      (MainLoop sampleLibrary sampleConfig sampleBoardTie 0 500).message =
        "### Leaderboard 🎄\n\n 1. **Cy** 📈 _50_ ⭐ _4_\n 1. **Cy** 📈 _50_ ⭐ _4_\n" := by
  decide

end MainGo
